import Mathlib

/-!
# A verification model of the simdscan instruction classifier

This development shallowly embeds the classification core of `simdscan`
(`src/main.rs`): the static ISA-extension mnemonic table, the two regexes
that filter disassembly lines and extract a candidate mnemonic, the
first-match classification loop, and the aggregation into a report.

Modelling conventions:
* Rust `&str` lines become `String`; character scanning works on `String.data`.
* The regexes `^\s*[0-9a-f]+:\s+\w` (`OBJLINE_RE`) and `\s([a-z][a-z0-9]+\b)`
  (`MNE_RE`) are embedded as explicit scanners over `List Char`.  The
  character classes `\s`, `\w`, `[a-z]`, `[0-9a-f]` are modelled at ASCII
  (disassembly text is ASCII); Rust's default Unicode classes agree there.
* `IndexMap` becomes an association list that preserves insertion order and
  updates in place; `HashMap` also becomes an association list (its claims
  are proved for arbitrary entry order where the Rust order is unspecified).
* `isa_counts.sort_keys()` and the descending count sort in `main` become
  `List.insertionSort` with the corresponding relations.
-/

namespace Simdscan

/-- ASCII model of the regex class `\s` (space, tab, newline, carriage
return, vertical tab, form feed). -/
def isSpaceChar (c : Char) : Bool :=
  c == ' ' || c == '\t' || c == '\n' || c == '\r' || c == Char.ofNat 11 || c == Char.ofNat 12

/-- ASCII model of the regex class `\w` (alphanumeric or underscore). -/
def isWordChar (c : Char) : Bool :=
  c.isAlphanum || c == '_'

/-- The regex class `[0-9a-f]` (lowercase hex digit). -/
def isHexLower (c : Char) : Bool :=
  c.isDigit || (97 ≤ c.toNat && c.toNat ≤ 102)

/-- The regex class `[a-z0-9]` (lowercase letter or digit). -/
def isLowerDigit (c : Char) : Bool :=
  c.isLower || c.isDigit

/-- Model of `OBJLINE_RE.is_match`, i.e. of the anchored regex
`^\s*[0-9a-f]+:\s+\w`.  Because the adjacent character classes are disjoint,
the greedy repetitions never backtrack, so maximal-munch scanning is exact. -/
def objlineMatch (cs : List Char) : Bool :=
  let r1 := cs.dropWhile isSpaceChar
  !(r1.takeWhile isHexLower).isEmpty &&
    (match r1.dropWhile isHexLower with
     | ':' :: r2 =>
       !(r2.takeWhile isSpaceChar).isEmpty &&
         (match r2.dropWhile isSpaceChar with
          | c :: _ => isWordChar c
          | [] => false)
     | _ => false)

/-- Attempt of `MNE_RE` (`\s([a-z][a-z0-9]+\b)`) at the current position:
a whitespace character, a lowercase letter, then a maximal nonempty run of
`[a-z0-9]`, which must end at a word boundary.  Returns the pair
(whole match, capture group 1), mirroring `regex::Captures`: group 1 is
represented as an `Option` because `captures.get(1)` is fallible in the API.
Backtracking the greedy `+` cannot help (any shorter run ends between two
word characters, where `\b` fails), so maximal munch is again exact. -/
def mneCapturesAt : List Char → Option (List Char × Option (List Char))
  | sp :: c :: rest =>
    if isSpaceChar sp && c.isLower then
      let run := rest.takeWhile isLowerDigit
      if run.isEmpty then none
      else
        match rest.dropWhile isLowerDigit with
        | [] => some (sp :: c :: run, some (c :: run))
        | d :: _ => if isWordChar d then none else some (sp :: c :: run, some (c :: run))
    else none
  | _ => none

/-- Model of `MNE_RE.captures(line)`: the leftmost position where
`mneCapturesAt` succeeds. -/
def mneCaptures : List Char → Option (List Char × Option (List Char))
  | [] => none
  | c :: rest =>
    match mneCapturesAt (c :: rest) with
    | some cap => some cap
    | none => mneCaptures rest

/-- The SSE mnemonic set of `ISA_TABLE`. -/
def sseSet : List String :=
  ["addps", "addss", "andnps", "andps", "cmpps", "cmpss", "comiss",
   "cvtpi2ps", "cvtps2pi", "cvtsi2ss", "cvtss2si", "cvttps2pi", "cvttss2si",
   "divps", "divss", "ldmxcsr", "maxps", "maxss", "minps", "minss",
   "movaps", "movhlps", "movhps", "movlhps", "movlps", "movmskps",
   "movntps", "movss", "movups", "mulps", "mulss", "orps", "rcpps",
   "rcpss", "rsqrtps", "rsqrtss", "shufps", "sqrtps", "sqrtss",
   "stmxcsr", "subps", "subss", "ucomiss", "unpckhps", "unpcklps",
   "xorps", "pavgb", "pavgw", "pextrw", "pinsrw", "pmaxsw", "pmaxub",
   "pminsw", "pminub", "pmovmskb", "psadbw", "pshufw"]

/-- The SSE2 mnemonic set of `ISA_TABLE`. -/
def sse2Set : List String :=
  ["addpd", "addsd", "andnpd", "andpd", "cmppd", "comisd", "cvtdq2pd",
   "cvtdq2ps", "cvtpd2dq", "cvtpd2pi", "cvtpd2ps", "cvtpi2pd",
   "cvtps2dq", "cvtps2pd", "cvtsd2si", "cvtsd2ss", "cvtsi2sd",
   "cvtss2sd", "cvttpd2dq", "cvttpd2pi", "cvttps2dq", "cvttsd2si",
   "divpd", "divsd", "maxpd", "maxsd", "minpd", "minsd", "movapd",
   "movhpd", "movlpd", "movmskpd", "movupd", "mulpd", "mulsd", "orpd",
   "shufpd", "sqrtpd", "sqrtsd", "subpd", "subsd", "ucomisd",
   "unpckhpd", "unpcklpd", "xorpd", "movdq2q", "movdqa", "movdqu",
   "movq2dq", "paddq", "pmuludq", "pshufhw", "pshuflw", "pshufd",
   "pslldq", "psrldq", "punpckhqdq", "punpcklqdq"]

/-- The SSE3 mnemonic set of `ISA_TABLE`. -/
def sse3Set : List String :=
  ["addsubpd", "addsubps", "haddpd", "haddps", "hsubpd", "hsubps",
   "movddup", "movshdup", "movsldup", "lddqu", "fisttp"]

/-- The SSSE3 mnemonic set of `ISA_TABLE`. -/
def ssse3Set : List String :=
  ["psignw", "psignd", "psignb", "pshufb", "pmulhrsw", "pmaddubsw",
   "phsubw", "phsubsw", "phsubd", "phaddw", "phaddsw", "phaddd",
   "palignr", "pabsw", "pabsd", "pabsb"]

/-- The SSE4 mnemonic set of `ISA_TABLE`. -/
def sse4Set : List String :=
  ["mpsadbw", "phminposuw", "pmulld", "pmuldq", "dpps", "dppd",
   "blendps", "blendpd", "blendvps", "blendvpd", "pblendvb", "pblendw",
   "pblenddw", "pminsb", "pmaxsb", "pminuw", "pmaxuw", "pminud",
   "pmaxud", "pminsd", "pmaxsd", "roundps", "roundss", "roundpd",
   "roundsd", "insertps", "pinsrb", "pinsrd", "pinsrq", "extractps",
   "pextrb", "pextrd", "pextrw", "pextrq", "pmovsxbw", "pmovzxbw",
   "pmovsxbd", "pmovzxbd", "pmovsxbq", "pmovzxbq", "pmovsxwd",
   "pmovzxwd", "pmovsxwq", "pmovzxwq", "pmovsxdq", "pmovzxdq",
   "ptest", "pcmpeqq", "pcmpgtq", "packusdw", "pcmpestri", "pcmpestrm",
   "pcmpistri", "pcmpistrm", "crc32", "popcnt", "movntdqa", "extrq",
   "insertq", "movntsd", "movntss", "lzcnt"]

/-- The AVX mnemonic set of `ISA_TABLE`. -/
def avxSet : List String :=
  ["vaddps", "vaddpd", "vaddss", "vaddsd", "vsubps", "vsubpd", "vsubss",
   "vsubsd", "vmulps", "vmulpd", "vmulss", "vmulsd", "vdivps", "vdivpd",
   "vdivss", "vdivsd", "vmaxps", "vmaxpd", "vmaxss", "vmaxsd", "vminps",
   "vminpd", "vminss", "vminsd", "vxorps", "vxorpd", "vandps", "vandpd",
   "vmovaps", "vmovups", "vmovapd", "vmovupd", "vmovdqa", "vmovdqu",
   "vmovntps", "vmovntpd", "vbroadcastss", "vbroadcastsd", "vinsertf128",
   "vextractf128", "vblendps", "vblendpd", "vblendvps", "vblendvpd",
   "vpermilps", "vpermilpd", "vperm2f128", "vshufps", "vshufpd",
   "vzeroupper", "vpaddd", "vpsubd", "vpmulld", "vpmuludq", "vpackssdw",
   "vpackusdw", "vpcmpeqd", "vpcmpgtd", "vpminud", "vpmaxud", "vpminsd",
   "vpmaxsd", "vgatherdps", "vgatherdpd", "vpgatherdd", "vpgatherdq",
   "vpmaskmovd", "vpmaskmovq", "vmaskmovps", "vmaskmovpd", "vfmadd213pd",
   "vfmadd231pd", "vfmadd132pd", "vfmsub213pd", "vfmsub231pd", "vfmsub132pd",
   "vfnmadd213pd", "vfnmadd231pd", "vfnmadd132pd"]

/-- The AVX-512 mnemonic set of `ISA_TABLE`. -/
def avx512Set : List String :=
  ["kaddd", "kandd", "korw", "kxorq", "vcompresspd", "vexpandps",
   "vpermb", "vpmovm2d", "vpconflictd", "vpternlogd", "vpshldv",
   "vpopcntd", "vscalefpd", "vrndscaleps"]

/-- The static classification table, in source insertion order.  The Rust
`HashMap` iterates in an unspecified order; theorems that depend on the
iteration order quantify over permutations of this list. -/
def ISA_TABLE : List (String × List String) :=
  [("SSE", sseSet), ("SSE2", sse2Set), ("SSE3", sse3Set), ("SSSE3", ssse3Set),
   ("SSE4", sse4Set), ("AVX", avxSet), ("AVX-512", avx512Set)]

/-- Model of `captures.get(1).unwrap().as_str().to_lowercase()` guarded by
`OBJLINE_RE.is_match`: the candidate mnemonic a line yields, if any.  The
`unwrap` is modelled by `Option.getD []`; the safety theorem shows the
default branch is unreachable because group 1 participates in every match. -/
def extractMnemonic (line : String) : Option String :=
  if objlineMatch line.data then
    match mneCaptures line.data with
    | some cap => some (String.mk ((cap.2.getD []).map Char.toLower))
    | none => none
  else none

/-- The first-match loop over the table (`for (isa, mset) in ISA_TABLE.iter()`
with `break` on the first containing set). -/
def firstMatch (table : List (String × List String)) (m : String) : Option String :=
  match table with
  | [] => none
  | (isa, mset) :: rest => if mset.contains m then some isa else firstMatch rest m

/-- What one line contributes: the (extension, mnemonic) pair recorded by the
loop body, or nothing. -/
def classifyLine (table : List (String × List String)) (line : String) :
    Option (String × String) :=
  match extractMnemonic line with
  | none => none
  | some m =>
    match firstMatch table m with
    | none => none
    | some isa => some (isa, m)

/-- `*map.entry(k).or_insert(0) += 1` on an insertion-ordered association
list (the `IndexMap` update in `classify`). -/
def bumpCount : List (String × Nat) → String → List (String × Nat)
  | [], k => [(k, 1)]
  | (k', v) :: rest, k =>
    if k' = k then (k', v + 1) :: rest else (k', v) :: bumpCount rest k

/-- The nested `HashMap` update in `classify`: bump the per-mnemonic count
inside the entry of the given extension. -/
def bumpDetail : List (String × List (String × Nat)) → String → String →
    List (String × List (String × Nat))
  | [], isa, m => [(isa, bumpCount [] m)]
  | (k, d) :: rest, isa, m =>
    if k = isa then (k, bumpCount d m) :: rest else (k, d) :: bumpDetail rest isa m

/-- The classifier's loop body acting on the pair of accumulators
(`isa_counts`, `inst_detail`). -/
def stepLine (table : List (String × List String))
    (s : List (String × Nat) × List (String × List (String × Nat)))
    (line : String) :
    List (String × Nat) × List (String × List (String × Nat)) :=
  match classifyLine table line with
  | none => s
  | some (isa, m) => (bumpCount s.1 isa, bumpDetail s.2 isa m)

/-- The accumulators after the per-line loop of `classify`, before
`sort_keys`. -/
def classifyRaw (table : List (String × List String)) (lines : List String) :
    List (String × Nat) × List (String × List (String × Nat)) :=
  lines.foldl (stepLine table) ([], [])

/-- Executable strict lexicographic comparison on character lists (the order
Rust's `str` comparison induces on ASCII text).  It mirrors the structure of
`List.lt`, so it provably coincides with the ambient `String` order. -/
def charsLt : List Char → List Char → Bool
  | [], [] => false
  | [], _ :: _ => true
  | _ :: _, [] => false
  | a :: as, b :: bs =>
    if a < b then true
    else if b < a then false
    else charsLt as bs

/-- Executable `≤` on strings (`a ≤ b` iff not `b < a`). -/
def strLE (a b : String) : Bool := !(charsLt b.data a.data)

/-- Key order used by `isa_counts.sort_keys()`. -/
def keyLE (a b : String × Nat) : Prop := strLE a.1 b.1 = true

instance : DecidableRel keyLE := fun a b =>
  inferInstanceAs (Decidable (strLE a.1 b.1 = true))

/- The bridging facts `charsLt_iff_lt` / `strLE_iff` and the `IsTotal` /
`IsTrans` instances for `keyLE` appear after the definitions, at the start
of the theorem part of this file. -/

/-- `isa_counts.sort_keys()`: sort the summary by extension name. -/
def sortKeys (l : List (String × Nat)) : List (String × Nat) :=
  List.insertionSort keyLE l

/-- Model of `classify`: the sorted per-extension totals and the raw
per-extension per-mnemonic detail map. -/
def classify (table : List (String × List String)) (lines : List String) :
    List (String × Nat) × List (String × List (String × Nat)) :=
  let raw := classifyRaw table lines
  (sortKeys raw.1, raw.2)

/-- One entry of the detailed breakdown. -/
structure IsaDetail where
  unique_mnemonics : Nat
  occurrences : List (String × Nat)
  deriving Repr, DecidableEq

/-- Descending-count order used by `sorted_pairs.sort_by(|a, b| b.1.cmp(&a.1))`. -/
def countGE (a b : String × Nat) : Prop := b.2 ≤ a.2

instance : DecidableRel countGE := fun a b => Nat.decLe b.2 a.2

instance : IsTotal (String × Nat) countGE := ⟨fun a b => le_total b.2 a.2⟩

instance : IsTrans (String × Nat) countGE := ⟨fun _ _ _ h1 h2 => le_trans h2 h1⟩

/-- The per-extension detail record built in `main`: sort the observed
mnemonics by count descending, keep the top 10, and record the length of
the kept list as `unique_mnemonics`. -/
def mkIsaDetail (pairs : List (String × Nat)) : IsaDetail :=
  let occ := (List.insertionSort countGE pairs).take 10
  ⟨occ.length, occ⟩

/-- The `isa_details` map built in `main` when `--show-insts` is given,
as a function of the (arbitrarily ordered) detail entries. -/
def isaDetails (detail : List (String × List (String × Nat))) :
    List (String × IsaDetail) :=
  detail.map (fun p => (p.1, mkIsaDetail p.2))

/-- The report assembled by `main` after `classify` returns. -/
structure Report where
  binary : String
  has_simd : Bool
  isa_summary : List (String × Nat)
  total_simd_insts : Nat
  isa_details : Option (List (String × IsaDetail))
  deriving Repr, DecidableEq

/-- Sum of the counter values (`isa_counts.values().sum()`). -/
def sumVals (l : List (String × Nat)) : Nat :=
  (l.map Prod.snd).sum

/-- Model of `main` from `classify` onwards: build the `Report` from the
line sequence and the `--show-insts` flag. -/
def mkReport (binary : String) (lines : List String) (showInsts : Bool) : Report :=
  let p := classify ISA_TABLE lines
  let total := sumVals p.1
  { binary := binary
    has_simd := decide (0 < total)
    isa_summary := p.1
    total_simd_insts := total
    isa_details := if showInsts then some (isaDetails p.2) else none }

/-- Count lookup in an association list, defaulting to 0 (absent key =
counter never created). -/
def lookupCount : List (String × Nat) → String → Nat
  | [], _ => 0
  | (k, v) :: rest, k' => if k = k' then v else lookupCount rest k'

/-- Detail-map lookup, defaulting to the empty inner map. -/
def lookupDetail : List (String × List (String × Nat)) → String → List (String × Nat)
  | [], _ => []
  | (k, d) :: rest, k' => if k = k' then d else lookupDetail rest k'

/-- Occurrence count of a mnemonic under an extension in the detail map. -/
def lookupOcc (d : List (String × List (String × Nat))) (isa m : String) : Nat :=
  lookupCount (lookupDetail d isa) m

/-- The classified (extension, mnemonic) stream of a line sequence. -/
def occList (table : List (String × List String)) (lines : List String) :
    List (String × String) :=
  lines.filterMap (classifyLine table)

/-- Whether a string consists only of `[0-9a-f]` characters (the shape of a
lowercase hexadecimal address token). -/
def allHexLower (s : String) : Bool :=
  s.data.all isHexLower

/-- The three-line scenario from the specification. -/
def demoLines : List String :=
  ["  401000: addps %xmm0,%xmm1",
   "  401004: vaddps %ymm0,%ymm1,%ymm2",
   "Disassembly of section .text:"]

theorem charsLt_iff_lt : ∀ as bs : List Char, charsLt as bs = true ↔ as < bs := by
  intro as
  induction as with
  | nil =>
    intro bs
    cases bs with
    | nil =>
      simp only [charsLt]
      constructor
      · intro h; cases h
      · intro h; cases h
    | cons b bs =>
      simp only [charsLt]
      constructor
      · intro _; exact List.Lex.nil
      · intro _; trivial
  | cons a as ih =>
    intro bs
    cases bs with
    | nil =>
      simp only [charsLt]
      constructor
      · intro h; cases h
      · intro h; cases h
    | cons b bs =>
      simp only [charsLt]
      by_cases hab : a < b
      · simp only [if_pos hab]
        constructor
        · intro _; exact List.Lex.rel hab
        · intro _; trivial
      · simp only [if_neg hab]
        by_cases hba : b < a
        · simp only [if_pos hba]
          constructor
          · intro h; cases h
          · intro h
            cases h with
            | cons h3 => exact absurd hba (lt_irrefl a)
            | rel h1 => exact absurd h1 hab
        · simp only [if_neg hba]
          have heq : a = b := le_antisymm (not_lt.mp hba) (not_lt.mp hab)
          subst heq
          rw [ih bs]
          constructor
          · intro h; exact List.Lex.cons h
          · intro h
            cases h with
            | cons h3 => exact h3
            | rel h1 => exact absurd h1 hab

theorem strLE_iff (a b : String) : strLE a b = true ↔ a ≤ b := by
  unfold strLE
  rw [Bool.not_eq_true']
  constructor
  · intro hh
    refine not_lt.mp (fun hlt => ?_)
    rw [String.lt_iff_toList_lt] at hlt
    rw [(charsLt_iff_lt b.data a.data).mpr hlt] at hh
    cases hh
  · intro hh
    by_contra hc
    rw [Bool.not_eq_false] at hc
    have hlt : b.data < a.data := (charsLt_iff_lt b.data a.data).mp hc
    exact absurd (String.lt_iff_toList_lt.mpr hlt) (not_lt.mpr hh)

instance : IsTotal (String × Nat) keyLE :=
  ⟨fun a b => by
    rcases le_total a.1 b.1 with h | h
    · exact Or.inl ((strLE_iff _ _).mpr h)
    · exact Or.inr ((strLE_iff _ _).mpr h)⟩

instance : IsTrans (String × Nat) keyLE :=
  ⟨fun _ _ _ h1 h2 =>
    (strLE_iff _ _).mpr (le_trans ((strLE_iff _ _).mp h1) ((strLE_iff _ _).mp h2))⟩

theorem lookupCount_bumpCount (l : List (String × Nat)) (k k' : String) :
    lookupCount (bumpCount l k) k' = lookupCount l k' + (if k = k' then 1 else 0) := by
  induction l with
  | nil =>
    simp only [bumpCount, lookupCount]
    by_cases h : k = k' <;> simp [h]
  | cons p rest ih =>
    obtain ⟨a, v⟩ := p
    simp only [bumpCount]
    by_cases h : a = k
    · subst h
      simp only [if_pos rfl, lookupCount]
      by_cases h2 : a = k' <;> simp [h2]
    · simp only [if_neg h, lookupCount]
      by_cases h2 : a = k'
      · have hkk : ¬ k = k' := fun hh => h (h2.trans hh.symm)
        simp [h2, hkk]
      · simp [h2, ih]

theorem sumVals_bumpCount (l : List (String × Nat)) (k : String) :
    sumVals (bumpCount l k) = sumVals l + 1 := by
  induction l with
  | nil => simp [bumpCount, sumVals]
  | cons p rest ih =>
    obtain ⟨a, v⟩ := p
    by_cases h : a = k
    · subst h
      simp [bumpCount, sumVals]
      omega
    · simp only [bumpCount, if_neg h, sumVals, List.map_cons, List.sum_cons] at ih ⊢
      omega

theorem keys_bumpCount (l : List (String × Nat)) (k : String) :
    (bumpCount l k).map Prod.fst =
      if k ∈ l.map Prod.fst then l.map Prod.fst else l.map Prod.fst ++ [k] := by
  induction l with
  | nil => simp [bumpCount]
  | cons p rest ih =>
    obtain ⟨a, v⟩ := p
    by_cases h : a = k
    · subst h
      simp [bumpCount]
    · simp only [bumpCount, if_neg h, List.map_cons, ih]
      have hka : ¬ k = a := fun hh => h hh.symm
      by_cases h2 : k ∈ rest.map Prod.fst <;> simp [h2, List.mem_cons, hka]

theorem nodupKeys_bumpCount {l : List (String × Nat)} (k : String)
    (h : (l.map Prod.fst).Nodup) : ((bumpCount l k).map Prod.fst).Nodup := by
  rw [keys_bumpCount]
  by_cases h2 : k ∈ l.map Prod.fst
  · simpa [h2]
  · rw [if_neg h2]
    refine h.append (List.nodup_singleton k) ?_
    intro a ha hb
    rw [List.mem_singleton] at hb
    exact h2 (hb ▸ ha)

theorem lookupDetail_bumpDetail (d : List (String × List (String × Nat)))
    (isa m isa' : String) :
    lookupDetail (bumpDetail d isa m) isa' =
      if isa = isa' then bumpCount (lookupDetail d isa) m else lookupDetail d isa' := by
  induction d with
  | nil => simp [bumpDetail, lookupDetail]
  | cons p rest ih =>
    obtain ⟨a, dd⟩ := p
    simp only [bumpDetail]
    by_cases h : a = isa
    · subst h
      simp only [if_pos rfl, lookupDetail]
      by_cases h2 : a = isa' <;> simp [h2]
    · simp only [if_neg h, lookupDetail]
      by_cases h2 : a = isa'
      · subst h2
        have : ¬ isa = a := fun hh => h hh.symm
        simp [this]
      · simp [h2, ih]

theorem lookupOcc_bumpDetail (d : List (String × List (String × Nat)))
    (isa m isa' m' : String) :
    lookupOcc (bumpDetail d isa m) isa' m' =
      lookupOcc d isa' m' + (if isa = isa' ∧ m = m' then 1 else 0) := by
  unfold lookupOcc
  rw [lookupDetail_bumpDetail]
  by_cases h : isa = isa'
  · subst h
    rw [if_pos rfl, lookupCount_bumpCount]
    by_cases h2 : m = m' <;> simp [h2]
  · simp [h]

theorem keys_bumpDetail (d : List (String × List (String × Nat))) (isa m : String) :
    (bumpDetail d isa m).map Prod.fst =
      if isa ∈ d.map Prod.fst then d.map Prod.fst else d.map Prod.fst ++ [isa] := by
  induction d with
  | nil => simp [bumpDetail]
  | cons p rest ih =>
    obtain ⟨a, dd⟩ := p
    by_cases h : a = isa
    · subst h
      simp [bumpDetail]
    · simp only [bumpDetail, if_neg h, List.map_cons, ih]
      have hka : ¬ isa = a := fun hh => h hh.symm
      by_cases h2 : isa ∈ rest.map Prod.fst <;> simp [h2, List.mem_cons, hka]

theorem nodupKeys_bumpDetail {d : List (String × List (String × Nat))} (isa m : String)
    (h : (d.map Prod.fst).Nodup) : ((bumpDetail d isa m).map Prod.fst).Nodup := by
  rw [keys_bumpDetail]
  by_cases h2 : isa ∈ d.map Prod.fst
  · simpa [h2]
  · rw [if_neg h2]
    refine h.append (List.nodup_singleton isa) ?_
    intro a ha hb
    rw [List.mem_singleton] at hb
    exact h2 (hb ▸ ha)

theorem occList_cons (table : List (String × List String)) (l : String)
    (ls : List String) :
    occList table (l :: ls) =
      match classifyLine table l with
      | none => occList table ls
      | some p => p :: occList table ls := by
  cases h : classifyLine table l <;> simp [occList, List.filterMap_cons, h]

theorem classifyRaw_counts (table : List (String × List String)) (isa : String) :
    ∀ (lines : List String) s,
      lookupCount (List.foldl (stepLine table) s lines).1 isa
        = lookupCount s.1 isa
            + (occList table lines).countP (fun p => decide (p.1 = isa)) := by
  intro lines
  induction lines with
  | nil => intro s; simp [occList]
  | cons l ls ih =>
    intro s
    rw [List.foldl_cons, occList_cons]
    cases h : classifyLine table l with
    | none => simp [stepLine, h, ih]
    | some p =>
      obtain ⟨e, m⟩ := p
      simp only [stepLine, h, ih, List.countP_cons, lookupCount_bumpCount]
      by_cases h2 : e = isa <;> simp [h2] <;> omega

theorem classifyRaw_sumVals (table : List (String × List String)) :
    ∀ (lines : List String) s,
      sumVals (List.foldl (stepLine table) s lines).1
        = sumVals s.1 + (occList table lines).length := by
  intro lines
  induction lines with
  | nil => intro s; simp [occList]
  | cons l ls ih =>
    intro s
    rw [List.foldl_cons, occList_cons]
    cases h : classifyLine table l with
    | none => simp [stepLine, h, ih]
    | some p =>
      obtain ⟨e, m⟩ := p
      simp only [stepLine, h, ih, sumVals_bumpCount, List.length_cons]
      omega

theorem classifyRaw_occCount (table : List (String × List String)) (isa m : String) :
    ∀ (lines : List String) s,
      lookupOcc (List.foldl (stepLine table) s lines).2 isa m
        = lookupOcc s.2 isa m
            + (occList table lines).countP (fun p => decide (p = (isa, m))) := by
  intro lines
  induction lines with
  | nil => intro s; simp [occList]
  | cons l ls ih =>
    intro s
    rw [List.foldl_cons, occList_cons]
    cases h : classifyLine table l with
    | none => simp [stepLine, h, ih]
    | some p =>
      obtain ⟨e, m'⟩ := p
      simp only [stepLine, h, ih, List.countP_cons, lookupOcc_bumpDetail]
      by_cases h2 : e = isa
      · subst h2
        by_cases h3 : m' = m <;> simp [h3, Prod.ext_iff] <;> omega
      · have : ¬ ((e, m') = (isa, m)) := fun hh => h2 (congrArg Prod.fst hh)
        simp [h2, this]

theorem classifyRaw_nodupKeys (table : List (String × List String)) :
    ∀ (lines : List String) s, (s.1.map Prod.fst).Nodup →
      ((List.foldl (stepLine table) s lines).1.map Prod.fst).Nodup := by
  intro lines
  induction lines with
  | nil => intro s hs; simpa using hs
  | cons l ls ih =>
    intro s hs
    rw [List.foldl_cons]
    cases h : classifyLine table l with
    | none => simpa [stepLine, h] using ih _ hs
    | some p =>
      obtain ⟨e, m⟩ := p
      exact ih _ (by simpa [stepLine, h] using nodupKeys_bumpCount e hs)

theorem classifyRaw_nodupDetailKeys (table : List (String × List String)) :
    ∀ (lines : List String) s, (s.2.map Prod.fst).Nodup →
      ((List.foldl (stepLine table) s lines).2.map Prod.fst).Nodup := by
  intro lines
  induction lines with
  | nil => intro s hs; simpa using hs
  | cons l ls ih =>
    intro s hs
    rw [List.foldl_cons]
    cases h : classifyLine table l with
    | none => simpa [stepLine, h] using ih _ hs
    | some p =>
      obtain ⟨e, m⟩ := p
      exact ih _ (by simpa [stepLine, h] using nodupKeys_bumpDetail e m hs)

theorem lookupCount_perm {l l' : List (String × Nat)} (h : l.Perm l') :
    (l.map Prod.fst).Nodup → ∀ k, lookupCount l k = lookupCount l' k := by
  induction h with
  | nil => intro _ k; rfl
  | cons x h ih =>
    intro hn k
    obtain ⟨a, v⟩ := x
    simp only [lookupCount]
    by_cases h2 : a = k
    · simp [h2]
    · simp only [List.map_cons, List.nodup_cons] at hn
      simp [h2, ih hn.2 k]
  | swap x y l =>
    intro hn k
    obtain ⟨a, v⟩ := x
    obtain ⟨b, w⟩ := y
    simp only [List.map_cons, List.nodup_cons, List.mem_cons] at hn
    have hab : ¬ b = a := fun hh => hn.1 (Or.inl hh)
    have hba : ¬ a = b := fun hh => hab hh.symm
    simp only [lookupCount]
    by_cases h2 : b = k
    · subst h2
      simp [hba]
    · simp [h2]
  | trans h1 h2 ih1 ih2 =>
    intro hn k
    have hn2 := ((h1.map Prod.fst).nodup_iff).mp hn
    rw [ih1 hn k, ih2 hn2 k]

theorem sumVals_perm {l l' : List (String × Nat)} (h : l.Perm l') :
    sumVals l = sumVals l' :=
  (h.map Prod.snd).sum_eq

theorem sortKeys_perm (l : List (String × Nat)) : (sortKeys l).Perm l :=
  List.perm_insertionSort keyLE l

theorem lookupCount_sortKeys {l : List (String × Nat)}
    (hn : (l.map Prod.fst).Nodup) (k : String) :
    lookupCount (sortKeys l) k = lookupCount l k :=
  lookupCount_perm (sortKeys_perm l)
    (((sortKeys_perm l).map Prod.fst).nodup_iff.mpr hn) k

theorem sumVals_sortKeys (l : List (String × Nat)) :
    sumVals (sortKeys l) = sumVals l :=
  sumVals_perm (sortKeys_perm l)

theorem stepLine_none {table : List (String × List String)} {line : String}
    (h : classifyLine table line = none) (s) : stepLine table s line = s := by
  simp [stepLine, h]

theorem classifyRaw_skip {table : List (String × List String)} {line : String}
    (h : classifyLine table line = none) (pre post : List String) :
    classifyRaw table (pre ++ line :: post) = classifyRaw table (pre ++ post) := by
  unfold classifyRaw
  rw [List.foldl_append, List.foldl_append, List.foldl_cons, stepLine_none h]

theorem lookupCount_classifyRaw (table : List (String × List String))
    (lines : List String) (isa : String) :
    lookupCount (classifyRaw table lines).1 isa
      = (occList table lines).countP (fun p => decide (p.1 = isa)) := by
  have h := classifyRaw_counts table isa lines ([], [])
  simpa [classifyRaw, lookupCount] using h

theorem sumVals_classifyRaw (table : List (String × List String)) (lines : List String) :
    sumVals (classifyRaw table lines).1 = (occList table lines).length := by
  have h := classifyRaw_sumVals table lines ([], [])
  simpa [classifyRaw, sumVals] using h

theorem lookupOcc_classifyRaw (table : List (String × List String))
    (lines : List String) (isa m : String) :
    lookupOcc (classifyRaw table lines).2 isa m
      = (occList table lines).countP (fun p => decide (p = (isa, m))) := by
  have h := classifyRaw_occCount table isa m lines ([], [])
  simpa [classifyRaw, lookupOcc, lookupDetail, lookupCount] using h

theorem nodupKeys_classifyRaw (table : List (String × List String)) (lines : List String) :
    ((classifyRaw table lines).1.map Prod.fst).Nodup :=
  classifyRaw_nodupKeys table lines ([], []) (by simp)

theorem nodupDetailKeys_classifyRaw (table : List (String × List String))
    (lines : List String) :
    ((classifyRaw table lines).2.map Prod.fst).Nodup :=
  classifyRaw_nodupDetailKeys table lines ([], []) (by simp)

theorem occList_append (table : List (String × List String)) (l1 l2 : List String) :
    occList table (l1 ++ l2) = occList table l1 ++ occList table l2 := by
  simp [occList]

/-- C2: on the input lines `["  401000: addps %xmm0,%xmm1",
"  401004: vaddps %ymm0,%ymm1,%ymm2", "Disassembly of section .text:"]`
the classifier and aggregator produce summary `{AVX: 1, SSE: 1}`,
`total_simd_insts = 2` and `has_simd = true`. -/
theorem spec_c2_demo_scenario :
    (mkReport "demo" demoLines false).isa_summary = [("AVX", 1), ("SSE", 1)] ∧
    (mkReport "demo" demoLines false).total_simd_insts = 2 ∧
    (mkReport "demo" demoLines false).has_simd = true :=
  ⟨rfl, rfl, rfl⟩

/-- C7: for every input, `total_simd_insts` equals the sum of the
per-extension totals of the summary, and `has_simd` holds iff
`total_simd_insts > 0` (a third conjunct pins the total to the number of
classified occurrences). -/
theorem spec_c7_total_invariants (b : String) (lines : List String) (flag : Bool) :
    (mkReport b lines flag).total_simd_insts = sumVals (mkReport b lines flag).isa_summary ∧
    ((mkReport b lines flag).has_simd = true ↔ 0 < (mkReport b lines flag).total_simd_insts) ∧
    (mkReport b lines flag).total_simd_insts = (occList ISA_TABLE lines).length := by
  refine ⟨rfl, by simp [mkReport], ?_⟩
  show sumVals (sortKeys (classifyRaw ISA_TABLE lines).1) = _
  rw [sumVals_sortKeys, sumVals_classifyRaw]

/-- C6: the extension-to-total mapping in the summary is ordered strictly
ascending by extension name (lexicographic `String` order). -/
theorem spec_c6_summary_sorted_by_name (lines : List String) :
    ((classify ISA_TABLE lines).1).Pairwise (fun a b => a.1 < b.1) := by
  have hs : (sortKeys (classifyRaw ISA_TABLE lines).1).Pairwise keyLE :=
    List.sorted_insertionSort keyLE _
  have hn : ((sortKeys (classifyRaw ISA_TABLE lines).1).map Prod.fst).Nodup :=
    ((sortKeys_perm _).map Prod.fst).nodup_iff.mpr (nodupKeys_classifyRaw ISA_TABLE lines)
  have hne : (sortKeys (classifyRaw ISA_TABLE lines).1).Pairwise (fun a b => a.1 ≠ b.1) :=
    List.pairwise_map.mp hn
  exact (hs.and hne).imp (fun h => lt_of_le_of_ne ((strLE_iff _ _).mp h.1) h.2)

/-- C4: a line that fails the address-prefix regex, or matches it but yields
no mnemonic capture, contributes nothing: deleting it changes neither the
accumulators nor the report. -/
theorem spec_c4_nonmatching_line_contributes_zero (line : String)
    (h : objlineMatch line.data = false ∨ mneCaptures line.data = none) :
    ∀ (table : List (String × List String)) (pre post : List String),
      classifyRaw table (pre ++ line :: post) = classifyRaw table (pre ++ post) ∧
      (∀ b flag, mkReport b (pre ++ line :: post) flag = mkReport b (pre ++ post) flag) := by
  have hex : extractMnemonic line = none := by
    rcases h with h | h
    · simp [extractMnemonic, h]
    · simp [extractMnemonic, h]
  have hcl : ∀ table, classifyLine table line = none := by
    intro table; simp [classifyLine, hex]
  intro table pre post
  refine ⟨classifyRaw_skip (hcl table) pre post, ?_⟩
  intro b flag
  unfold mkReport classify
  rw [classifyRaw_skip (hcl ISA_TABLE) pre post]

/-- Closed instance of the C4 theorem at the spec's example line
`401000: 0x90` (address prefix matches, no extractable token). -/
theorem spec_c4_witness :
    classifyRaw ISA_TABLE ([] ++ "401000: 0x90" :: []) = classifyRaw ISA_TABLE ([] ++ []) ∧
    (∀ b flag, mkReport b ([] ++ "401000: 0x90" :: []) flag = mkReport b ([] ++ []) flag) :=
  spec_c4_nonmatching_line_contributes_zero "401000: 0x90" (Or.inr rfl) ISA_TABLE [] []

/-- C9: every line contributes at most one classified occurrence: the
per-line step either leaves all counters unchanged or increments exactly one
extension total and exactly one (extension, mnemonic) occurrence count by 1;
consequently `total_simd_insts` is at most the number of input lines. -/
theorem spec_c9_at_most_one_per_line (table : List (String × List String)) :
    (∀ lines : List String, sumVals (classifyRaw table lines).1 ≤ lines.length) ∧
    (∀ b (lines : List String) flag,
      (mkReport b lines flag).total_simd_insts ≤ lines.length) ∧
    (∀ pre (line : String) post,
      (classifyLine table line = none ∧
        classifyRaw table (pre ++ line :: post) = classifyRaw table (pre ++ post)) ∨
      (∃ isa m, classifyLine table line = some (isa, m) ∧
        (∀ isa', lookupCount (classifyRaw table (pre ++ line :: post)).1 isa'
          = lookupCount (classifyRaw table (pre ++ post)).1 isa'
              + (if isa = isa' then 1 else 0)) ∧
        (∀ isa' m', lookupOcc (classifyRaw table (pre ++ line :: post)).2 isa' m'
          = lookupOcc (classifyRaw table (pre ++ post)).2 isa' m'
              + (if isa = isa' ∧ m = m' then 1 else 0)) ∧
        sumVals (classifyRaw table (pre ++ line :: post)).1
          = sumVals (classifyRaw table (pre ++ post)).1 + 1)) := by
  refine ⟨?_, ?_, ?_⟩
  · intro lines
    rw [sumVals_classifyRaw]
    exact List.length_filterMap_le _ _
  · intro b lines flag
    show sumVals (sortKeys (classifyRaw ISA_TABLE lines).1) ≤ _
    rw [sumVals_sortKeys, sumVals_classifyRaw]
    exact List.length_filterMap_le _ _
  · intro pre line post
    cases h : classifyLine table line with
    | none => exact Or.inl ⟨rfl, classifyRaw_skip h pre post⟩
    | some p =>
      obtain ⟨isa, m⟩ := p
      refine Or.inr ⟨isa, m, rfl, ?_, ?_, ?_⟩
      · intro isa'
        rw [lookupCount_classifyRaw, lookupCount_classifyRaw, occList_append,
          occList_append, occList_cons, h, List.countP_append, List.countP_append,
          List.countP_cons]
        by_cases h2 : isa = isa' <;> simp [h2] <;> omega
      · intro isa' m'
        rw [lookupOcc_classifyRaw, lookupOcc_classifyRaw, occList_append,
          occList_append, occList_cons, h, List.countP_append, List.countP_append,
          List.countP_cons]
        by_cases h2 : isa = isa' ∧ m = m'
        · obtain ⟨h2a, h2b⟩ := h2
          subst h2a; subst h2b
          simp
          omega
        · have : ¬ ((isa, m) = (isa', m')) := by
            intro hh
            exact h2 ⟨congrArg Prod.fst hh, congrArg Prod.snd hh⟩
          simp [h2, this]
      · rw [sumVals_classifyRaw, sumVals_classifyRaw, occList_append, occList_append,
          occList_cons, h]
        simp
        omega

theorem mneCapturesAt_group : ∀ (cs : List Char) cap, mneCapturesAt cs = some cap →
    ∃ tok, cap.2 = some tok ∧ 2 ≤ tok.length := by
  intro cs cap h
  match cs with
  | [] => exact absurd h (by simp [mneCapturesAt])
  | [c] => exact absurd h (by simp [mneCapturesAt])
  | sp :: c :: rest =>
    simp only [mneCapturesAt] at h
    by_cases h1 : (isSpaceChar sp && c.isLower) = true
    · rw [if_pos h1] at h
      by_cases h2 : (rest.takeWhile isLowerDigit).isEmpty = true
      · rw [if_pos h2] at h; cases h
      · rw [if_neg h2] at h
        have hlen : 0 < (rest.takeWhile isLowerDigit).length := by
          cases hrun : rest.takeWhile isLowerDigit with
          | nil => rw [hrun] at h2; exact absurd rfl h2
          | cons x xs => simp
        cases hd : rest.dropWhile isLowerDigit with
        | nil =>
          rw [hd] at h
          cases h
          refine ⟨c :: rest.takeWhile isLowerDigit, rfl, ?_⟩
          simp only [List.length_cons]
          omega
        | cons d ds =>
          rw [hd] at h
          dsimp only at h
          by_cases h3 : isWordChar d = true
          · rw [if_pos h3] at h; cases h
          · rw [if_neg h3] at h
            cases h
            refine ⟨c :: rest.takeWhile isLowerDigit, rfl, ?_⟩
            simp only [List.length_cons]
            omega
    · rw [if_neg h1] at h; cases h

theorem mneCaptures_group : ∀ (cs : List Char) cap, mneCaptures cs = some cap →
    ∃ tok, cap.2 = some tok ∧ 2 ≤ tok.length := by
  intro cs
  induction cs with
  | nil => intro cap h; simp [mneCaptures] at h
  | cons c rest ih =>
    intro cap h
    simp only [mneCaptures] at h
    cases h2 : mneCapturesAt (c :: rest) with
    | some cap2 =>
      rw [h2] at h
      simp only [Option.some.injEq] at h
      subst h
      exact mneCapturesAt_group (c :: rest) _ h2
    | none =>
      rw [h2] at h
      simp only at h
      exact ih cap h

/-- C8: the classification core is total — every line sequence yields a
report — and the `captures.get(1).unwrap()` in `classify` is safe: capture
group 1 participates in every match of the mnemonic regex (and captures a
token of length at least 2). -/
theorem spec_c8_totality_and_capture_safety :
    (∀ (cs : List Char) cap, mneCaptures cs = some cap →
      ∃ tok, cap.2 = some tok ∧ 2 ≤ tok.length) ∧
    (∀ (b : String) (lines : List String) (flag : Bool),
      ∃ r : Report, mkReport b lines flag = r) :=
  ⟨mneCaptures_group, fun _ _ _ => ⟨_, rfl⟩⟩

/-- Closed instance of the C8 theorem: on the line `" ab"` the regex matches
with a populated capture group. -/
theorem spec_c8_witness :
    ∃ tok, (([' ', 'a', 'b'], some ['a', 'b']) :
        List Char × Option (List Char)).2 = some tok ∧ 2 ≤ tok.length :=
  spec_c8_totality_and_capture_safety.1 [' ', 'a', 'b']
    ([' ', 'a', 'b'], some ['a', 'b']) rfl

theorem lookupDetail_eq_of_mem {l : List (String × List (String × Nat))}
    (hn : (l.map Prod.fst).Nodup) {k : String} {v : List (String × Nat)}
    (h : (k, v) ∈ l) : lookupDetail l k = v := by
  induction l with
  | nil => cases h
  | cons p rest ih =>
    obtain ⟨a, d⟩ := p
    simp only [List.map_cons, List.nodup_cons] at hn
    rcases List.mem_cons.mp h with h1 | h1
    · injection h1 with e1 e2
      subst e1; subst e2
      simp [lookupDetail]
    · have hak : ¬ a = k := by
        intro hh
        subst hh
        exact hn.1 (List.mem_map_of_mem Prod.fst h1)
      simp [lookupDetail, hak, ih hn.2 h1]

/-- C5: in detailed mode every extension's breakdown has at most 10
occurrence entries, sorted by count descending, and `unique_mnemonics` is
the length of that (possibly truncated) list, i.e. the minimum of the
number of distinct mnemonics observed for the extension and 10. -/
theorem spec_c5_detail_shape (b : String) (lines : List String)
    (ds : List (String × IsaDetail)) (isa : String) (d : IsaDetail)
    (hds : (mkReport b lines true).isa_details = some ds)
    (hmem : (isa, d) ∈ ds) :
    d.occurrences.length ≤ 10 ∧
    d.occurrences.Pairwise (fun a b => b.2 ≤ a.2) ∧
    d.unique_mnemonics = d.occurrences.length ∧
    d.unique_mnemonics
      = min (lookupDetail (classifyRaw ISA_TABLE lines).2 isa).length 10 := by
  have heq : (mkReport b lines true).isa_details
      = some (isaDetails (classifyRaw ISA_TABLE lines).2) := rfl
  rw [heq] at hds
  injection hds with hds2
  subst hds2
  obtain ⟨p, hp, he⟩ := List.mem_map.mp hmem
  obtain ⟨pi, pd⟩ := p
  injection he with he1 he2
  subst he1
  subst he2
  have hpd : lookupDetail (classifyRaw ISA_TABLE lines).2 pi = pd :=
    lookupDetail_eq_of_mem (nodupDetailKeys_classifyRaw ISA_TABLE lines) hp
  rw [hpd]
  refine ⟨List.length_take_le _ _, ?_, rfl, ?_⟩
  · exact (List.sorted_insertionSort countGE pd).sublist (List.take_sublist _ _)
  · show ((List.insertionSort countGE pd).take 10).length = min pd.length 10
    rw [List.length_take, List.length_insertionSort, Nat.min_comm]

/-- Closed instance of the C5 theorem on a one-line input whose detail map
is `SSE ↦ {addps ↦ 1}`. -/
theorem spec_c5_witness :
    (IsaDetail.mk 1 [("addps", 1)]).occurrences.length ≤ 10 ∧
    (IsaDetail.mk 1 [("addps", 1)]).occurrences.Pairwise (fun a b => b.2 ≤ a.2) ∧
    (IsaDetail.mk 1 [("addps", 1)]).unique_mnemonics
      = (IsaDetail.mk 1 [("addps", 1)]).occurrences.length ∧
    (IsaDetail.mk 1 [("addps", 1)]).unique_mnemonics
      = min (lookupDetail
          (classifyRaw ISA_TABLE ["  401000: addps %xmm0,%xmm1"]).2 "SSE").length 10 :=
  spec_c5_detail_shape "w" ["  401000: addps %xmm0,%xmm1"]
    [("SSE", ⟨1, [("addps", 1)]⟩)] "SSE" ⟨1, [("addps", 1)]⟩ rfl
    (List.mem_singleton.mpr rfl)

/-- C1 counterexample: the claim that the per-extension mnemonic sets are
pairwise disjoint is false — `pextrw` is listed both under SSE and under
SSE4 in the source table. -/
theorem spec_c1_counterexample :
    ¬ (∀ p ∈ ISA_TABLE, ∀ q ∈ ISA_TABLE, p.1 ≠ q.1 → ∀ m ∈ p.2, m ∉ q.2) := by
  intro h
  have h1 : ("SSE", sseSet) ∈ ISA_TABLE := by simp [ISA_TABLE]
  have h2 : ("SSE4", sse4Set) ∈ ISA_TABLE := by simp [ISA_TABLE]
  exact h _ h1 _ h2 (by decide) "pextrw" (by decide) (by decide)

theorem disj_1 : ∀ m ∈ sseSet, m ∉ sse2Set := by decide

theorem disj_2 : ∀ m ∈ sseSet, m ∉ sse3Set := by decide

theorem disj_3 : ∀ m ∈ sseSet, m ∉ ssse3Set := by decide

theorem disj_4 : ∀ m ∈ sseSet, m ∉ avxSet := by decide

theorem disj_5 : ∀ m ∈ sseSet, m ∉ avx512Set := by decide

theorem disj_6 : ∀ m ∈ sse2Set, m ∉ sse3Set := by decide

theorem disj_7 : ∀ m ∈ sse2Set, m ∉ ssse3Set := by decide

theorem disj_8 : ∀ m ∈ sse2Set, m ∉ sse4Set := by decide

theorem disj_9 : ∀ m ∈ sse2Set, m ∉ avxSet := by decide

theorem disj_10 : ∀ m ∈ sse2Set, m ∉ avx512Set := by decide

theorem disj_11 : ∀ m ∈ sse3Set, m ∉ ssse3Set := by decide

theorem disj_12 : ∀ m ∈ sse3Set, m ∉ sse4Set := by decide

theorem disj_13 : ∀ m ∈ sse3Set, m ∉ avxSet := by decide

theorem disj_14 : ∀ m ∈ sse3Set, m ∉ avx512Set := by decide

theorem disj_15 : ∀ m ∈ ssse3Set, m ∉ sse4Set := by decide

theorem disj_16 : ∀ m ∈ ssse3Set, m ∉ avxSet := by decide

theorem disj_17 : ∀ m ∈ ssse3Set, m ∉ avx512Set := by decide

theorem disj_18 : ∀ m ∈ sse4Set, m ∉ avxSet := by decide

theorem disj_19 : ∀ m ∈ sse4Set, m ∉ avx512Set := by decide

theorem disj_20 : ∀ m ∈ avxSet, m ∉ avx512Set := by decide

theorem ov_sse_sse4 : ∀ m ∈ sseSet, m ∈ sse4Set → m = "pextrw" := by decide

theorem ov_sse4_sse : ∀ m ∈ sse4Set, m ∈ sseSet → m = "pextrw" := by decide

/-- C1 amended: the mnemonic sets of distinct extensions are pairwise
disjoint except for the single mnemonic `pextrw`, which SSE and SSE4 share. -/
theorem spec_c1_amended :
    ∀ p ∈ ISA_TABLE, ∀ q ∈ ISA_TABLE, p.1 ≠ q.1 →
      ∀ m ∈ p.2, m ∈ q.2 →
      ((p.1 = "SSE" ∧ q.1 = "SSE4") ∨ (p.1 = "SSE4" ∧ q.1 = "SSE")) ∧ m = "pextrw" := by
  intro p hp q hq hne m hmp hmq
  simp only [ISA_TABLE, List.mem_cons, List.mem_nil_iff, or_false] at hp hq
  rcases hp with rfl | rfl | rfl | rfl | rfl | rfl | rfl <;>
    rcases hq with rfl | rfl | rfl | rfl | rfl | rfl | rfl <;>
    first
      | exact absurd rfl hne
      | exact ⟨Or.inl ⟨rfl, rfl⟩, ov_sse_sse4 m hmp hmq⟩
      | exact ⟨Or.inr ⟨rfl, rfl⟩, ov_sse4_sse m hmp hmq⟩
      | exact absurd hmq (disj_1 m hmp)
      | exact absurd hmp (disj_1 m hmq)
      | exact absurd hmq (disj_2 m hmp)
      | exact absurd hmp (disj_2 m hmq)
      | exact absurd hmq (disj_3 m hmp)
      | exact absurd hmp (disj_3 m hmq)
      | exact absurd hmq (disj_4 m hmp)
      | exact absurd hmp (disj_4 m hmq)
      | exact absurd hmq (disj_5 m hmp)
      | exact absurd hmp (disj_5 m hmq)
      | exact absurd hmq (disj_6 m hmp)
      | exact absurd hmp (disj_6 m hmq)
      | exact absurd hmq (disj_7 m hmp)
      | exact absurd hmp (disj_7 m hmq)
      | exact absurd hmq (disj_8 m hmp)
      | exact absurd hmp (disj_8 m hmq)
      | exact absurd hmq (disj_9 m hmp)
      | exact absurd hmp (disj_9 m hmq)
      | exact absurd hmq (disj_10 m hmp)
      | exact absurd hmp (disj_10 m hmq)
      | exact absurd hmq (disj_11 m hmp)
      | exact absurd hmp (disj_11 m hmq)
      | exact absurd hmq (disj_12 m hmp)
      | exact absurd hmp (disj_12 m hmq)
      | exact absurd hmq (disj_13 m hmp)
      | exact absurd hmp (disj_13 m hmq)
      | exact absurd hmq (disj_14 m hmp)
      | exact absurd hmp (disj_14 m hmq)
      | exact absurd hmq (disj_15 m hmp)
      | exact absurd hmp (disj_15 m hmq)
      | exact absurd hmq (disj_16 m hmp)
      | exact absurd hmp (disj_16 m hmq)
      | exact absurd hmq (disj_17 m hmp)
      | exact absurd hmp (disj_17 m hmq)
      | exact absurd hmq (disj_18 m hmp)
      | exact absurd hmp (disj_18 m hmq)
      | exact absurd hmq (disj_19 m hmp)
      | exact absurd hmp (disj_19 m hmq)
      | exact absurd hmq (disj_20 m hmp)
      | exact absurd hmp (disj_20 m hmq)

/-- Closed instance of the amended C1 theorem at the shared mnemonic. -/
theorem spec_c1_amended_witness :
    ((("SSE" : String) = "SSE" ∧ ("SSE4" : String) = "SSE4") ∨
      (("SSE" : String) = "SSE4" ∧ ("SSE4" : String) = "SSE")) ∧
    ("pextrw" : String) = "pextrw" :=
  spec_c1_amended ("SSE", sseSet) (by simp [ISA_TABLE]) ("SSE4", sse4Set)
    (by simp [ISA_TABLE]) (by decide) "pextrw" (by decide) (by decide)

theorem firstMatch_unique :
    ∀ (table : List (String × List String)) (isa : String) (mset : List String)
      (m : String),
      (isa, mset) ∈ table → m ∈ mset →
      table.countP (fun p => p.2.contains m) = 1 →
      firstMatch table m = some isa := by
  intro table
  induction table with
  | nil => intro isa mset m hmem _ _; cases hmem
  | cons p rest ih =>
    intro isa mset m hmem hin hcount
    obtain ⟨k, s⟩ := p
    rcases List.mem_cons.mp hmem with h1 | h1
    · injection h1 with e1 e2
      subst e1; subst e2
      have hc : mset.contains m = true := List.elem_iff.mpr hin
      simp only [firstMatch]
      rw [if_pos hc]
    · by_cases hc : s.contains m = true
      · exfalso
        rw [List.countP_cons_of_pos _ _ (by exact hc)] at hcount
        have h0 : rest.countP (fun p => p.2.contains m) = 0 := by omega
        exact (List.countP_eq_zero.mp h0 (isa, mset) h1) (List.elem_iff.mpr hin)
      · rw [List.countP_cons_of_neg _ _ (by exact hc)] at hcount
        have hrec := ih isa mset m h1 hin hcount
        simp only [firstMatch]
        rw [if_neg hc]
        exact hrec

theorem occList_count_of_firstMatch
    (table : List (String × List String)) (isa m : String)
    (hfm : firstMatch table m = some isa) :
    ∀ (lines : List String) (isa' : String),
      (occList table lines).countP (fun p => decide (p = (isa', m)))
        = if isa' = isa then (lines.filterMap extractMnemonic).count m else 0 := by
  intro lines
  induction lines with
  | nil => intro isa'; by_cases h : isa' = isa <;> simp [occList, h]
  | cons l ls ih =>
    intro isa'
    rw [occList_cons]
    cases he : extractMnemonic l with
    | none =>
      have hcl : classifyLine table l = none := by simp [classifyLine, he]
      simp only [hcl, List.filterMap_cons, he]
      exact ih isa'
    | some m2 =>
      cases hf : firstMatch table m2 with
      | none =>
        have hcl : classifyLine table l = none := by simp [classifyLine, he, hf]
        have hm2 : ¬ m2 = m := fun hh => by rw [hh, hfm] at hf; cases hf
        have hm2s : ¬ m = m2 := fun hh => hm2 hh.symm
        simp only [hcl, List.filterMap_cons, he, List.count_cons]
        rw [ih isa']
        by_cases h : isa' = isa <;> simp [h, hm2, hm2s]
      | some e =>
        have hcl : classifyLine table l = some (e, m2) := by simp [classifyLine, he, hf]
        simp only [hcl, List.filterMap_cons, he, List.count_cons, List.countP_cons]
        rw [ih isa']
        by_cases hm2 : m2 = m
        · subst hm2
          rw [hfm] at hf
          injection hf with hfe
          subst hfe
          by_cases h : isa' = isa
          · subst h
            simp
          · have hne : ¬ ((isa, m2) = (isa', m2)) :=
              fun hh => h (congrArg Prod.fst hh).symm
            simp [h, hne]
        · have hne : ¬ ((e, m2) = (isa', m)) := fun hh => hm2 (congrArg Prod.snd hh)
          have hm2s : ¬ m = m2 := fun hh => hm2 hh.symm
          by_cases h : isa' = isa <;> simp [h, hne, hm2, hm2s]

/-- C3: a mnemonic listed under exactly one extension is always attributed
to that extension — for every iteration order of the table (any permutation
of `ISA_TABLE`) and independently of the order of the input lines. -/
theorem spec_c3_unique_mnemonic_attribution
    (table : List (String × List String)) (hperm : ISA_TABLE.Perm table)
    (isa : String) (mset : List String) (m : String)
    (hmem : (isa, mset) ∈ table) (hin : m ∈ mset)
    (huniq : ISA_TABLE.countP (fun p => p.2.contains m) = 1) :
    firstMatch table m = some isa ∧
    ∀ (lines lines' : List String), lines.Perm lines' →
      lookupOcc (classifyRaw table lines).2 isa m
        = (lines.filterMap extractMnemonic).count m ∧
      (∀ isa', lookupOcc (classifyRaw table lines).2 isa' m
        = if isa' = isa then (lines.filterMap extractMnemonic).count m else 0) ∧
      lookupOcc (classifyRaw table lines').2 isa m
        = lookupOcc (classifyRaw table lines).2 isa m := by
  have hcount : table.countP (fun p => p.2.contains m) = 1 := by
    rw [← hperm.countP_eq]; exact huniq
  have hfm : firstMatch table m = some isa :=
    firstMatch_unique table isa mset m hmem hin hcount
  refine ⟨hfm, ?_⟩
  intro lines lines' hlp
  refine ⟨?_, ?_, ?_⟩
  · rw [lookupOcc_classifyRaw, occList_count_of_firstMatch table isa m hfm lines isa]
    simp
  · intro isa'
    rw [lookupOcc_classifyRaw, occList_count_of_firstMatch table isa m hfm lines isa']
  · rw [lookupOcc_classifyRaw, lookupOcc_classifyRaw]
    exact (((hlp.filterMap (classifyLine table)).countP_eq _)).symm

/-- Closed instance of the C3 theorem: `addps` is listed only under SSE and
on the demo lines its single occurrence is attributed to SSE. -/
theorem spec_c3_witness :
    firstMatch ISA_TABLE "addps" = some "SSE" ∧
    lookupOcc (classifyRaw ISA_TABLE demoLines).2 "SSE" "addps"
      = (demoLines.filterMap extractMnemonic).count "addps" := by
  have h := spec_c3_unique_mnemonic_attribution ISA_TABLE (List.Perm.refl _)
    "SSE" sseSet "addps" (by simp [ISA_TABLE]) (by decide) (by decide)
  exact ⟨h.1, (h.2 demoLines demoLines (List.Perm.refl _)).1⟩

theorem not_isLower_of_isSpaceChar {c : Char} (h : isSpaceChar c = true) :
    c.isLower = false := by
  simp only [isSpaceChar, Bool.or_eq_true, beq_iff_eq] at h
  rcases h with ((((h | h) | h) | h) | h) | h <;> subst h <;> rfl

theorem isLowerDigit_of_isHexLower {c : Char} (h : isHexLower c = true) :
    isLowerDigit c = true := by
  simp only [isHexLower, Bool.or_eq_true, Bool.and_eq_true, decide_eq_true_eq] at h
  rcases h with h | h
  · simp [isLowerDigit, h]
  · have hlow : c.isLower = true := by
      simp only [Char.isLower, Bool.and_eq_true, decide_eq_true_eq]
      refine ⟨h.1, ?_⟩
      show c.toNat ≤ 122
      omega
    simp [isLowerDigit, hlow]

theorem toLower_eq_self_of_lowerDigit {c : Char} (h : isLowerDigit c = true) :
    c.toLower = c := by
  have hb : ¬ (Char.toNat c ≥ 65 ∧ Char.toNat c ≤ 90) := by
    simp only [isLowerDigit, Bool.or_eq_true] at h
    rcases h with h | h
    · simp only [Char.isLower, Bool.and_eq_true, decide_eq_true_eq] at h
      have h1 : 97 ≤ c.toNat := h.1
      intro hc
      omega
    · simp only [Char.isDigit, Bool.and_eq_true, decide_eq_true_eq] at h
      have h1 : c.toNat ≤ 57 := h.2
      intro hc
      omega
  simp only [Char.toLower]
  rw [if_neg hb]

theorem map_toLower_eq_self {l : List Char} (h : ∀ c ∈ l, isLowerDigit c = true) :
    l.map Char.toLower = l := by
  induction l with
  | nil => rfl
  | cons a t ih =>
    rw [List.map_cons, toLower_eq_self_of_lowerDigit (h a (List.mem_cons_self a t)),
      ih (fun c hc => h c (List.mem_cons_of_mem a hc))]

theorem takeWhile_append_of_all {p : Char → Bool} :
    ∀ (t : List Char) (x : Char) (r : List Char),
      (∀ c ∈ t, p c = true) → p x = false →
      (t ++ x :: r).takeWhile p = t ∧ (t ++ x :: r).dropWhile p = x :: r := by
  intro t
  induction t with
  | nil =>
    intro x r _ hx
    constructor
    · simp [List.takeWhile_cons, hx]
    · simp [List.dropWhile_cons, hx]
  | cons a t ih =>
    intro x r hall hx
    have ha : p a = true := hall a (List.mem_cons_self a t)
    obtain ⟨ih1, ih2⟩ := ih x r (fun c hc => hall c (List.mem_cons_of_mem a hc)) hx
    constructor
    · simp [List.takeWhile_cons, ha, ih1]
    · simp [List.dropWhile_cons, ha, ih2]

theorem mneCapturesAt_space_token (w a : Char) (t rest : List Char)
    (hw : isSpaceChar w = true) (ha : a.isLower = true) (ht : t ≠ [])
    (htld : ∀ c ∈ t, isLowerDigit c = true) :
    mneCapturesAt (w :: a :: (t ++ ':' :: rest)) = some (w :: a :: t, some (a :: t)) := by
  have hcolon : isLowerDigit ':' = false := rfl
  obtain ⟨htake, hdrop⟩ := takeWhile_append_of_all t ':' rest htld hcolon
  have hemp : t.isEmpty = false := by
    cases t with
    | nil => exact absurd rfl ht
    | cons x xs => rfl
  have hword : isWordChar ':' = false := rfl
  simp [mneCapturesAt, hw, ha, htake, hdrop, hemp, hword]

theorem mneCaptures_space_token :
    ∀ (ws : List Char), ws ≠ [] → (∀ c ∈ ws, isSpaceChar c = true) →
    ∀ (a : Char) (t rest : List Char), a.isLower = true → t ≠ [] →
      (∀ c ∈ t, isLowerDigit c = true) →
      (mneCaptures (ws ++ a :: (t ++ ':' :: rest))).map Prod.snd
        = some (some (a :: t)) := by
  intro ws
  induction ws with
  | nil => intro h; exact absurd rfl h
  | cons w ws ih =>
    intro _ hall a t rest ha ht htld
    cases ws with
    | nil =>
      have hstep : ([w] : List Char) ++ a :: (t ++ ':' :: rest)
          = w :: a :: (t ++ ':' :: rest) := rfl
      rw [hstep]
      simp only [mneCaptures]
      rw [mneCapturesAt_space_token w a t rest (hall w (by simp)) ha ht htld]
      rfl
    | cons w2 ws2 =>
      have hw2 : isSpaceChar w2 = true := hall w2 (by simp)
      have hlow : w2.isLower = false := not_isLower_of_isSpaceChar hw2
      have hnone : mneCapturesAt (w :: w2 :: (ws2 ++ a :: (t ++ ':' :: rest))) = none := by
        simp [mneCapturesAt, hlow]
      have hih := ih (by simp) (fun c hc => hall c (List.mem_cons_of_mem w hc))
        a t rest ha ht htld
      have hstep : (w :: w2 :: ws2) ++ a :: (t ++ ':' :: rest)
          = w :: w2 :: (ws2 ++ a :: (t ++ ':' :: rest)) := rfl
      rw [hstep]
      simp only [mneCaptures]
      rw [hnone]
      exact hih

theorem firstMatch_eq_none_of_no_hex :
    ∀ (table : List (String × List String)) (m : String),
      (∀ p ∈ table, ∀ s ∈ p.2, allHexLower s = false) → allHexLower m = true →
      firstMatch table m = none := by
  intro table m
  induction table with
  | nil => intro _ _; rfl
  | cons p rest ih =>
    intro h hm
    obtain ⟨k, s⟩ := p
    have hc : s.contains m = false := by
      by_contra hcc
      rw [Bool.not_eq_false] at hcc
      have hmem : m ∈ s := List.elem_iff.mp hcc
      have hfalse := h (k, s) (List.mem_cons_self _ _) m hmem
      rw [hm] at hfalse
      cases hfalse
    simp only [firstMatch]
    rw [if_neg (by rw [hc]; exact Bool.false_ne_true)]
    exact ih (fun q hq => h q (List.mem_cons_of_mem _ hq)) hm

theorem table_no_hex_mnemonics :
    ∀ p ∈ ISA_TABLE, ∀ s ∈ p.2, allHexLower s = false := by decide

/-- C10: on a qualifying instruction line that begins with whitespace and
whose hexadecimal address token itself has the identifier shape (a lowercase
letter a-f followed by further lowercase hex digits), the extractor takes
the address token as the candidate mnemonic; since no table mnemonic is a
pure hex string, the line contributes zero occurrences — no matter what
(e.g. a known SIMD mnemonic) follows the colon. -/
theorem spec_c10_address_token_shadowing
    (ws : List Char) (a : Char) (t rest : List Char)
    (hws : ws ≠ []) (hall : ∀ c ∈ ws, isSpaceChar c = true)
    (haLow : a.isLower = true) (haHex : isHexLower a = true)
    (ht : t ≠ []) (hthex : ∀ c ∈ t, isHexLower c = true)
    (hobj : objlineMatch (ws ++ a :: (t ++ ':' :: rest)) = true) :
    extractMnemonic ⟨ws ++ a :: (t ++ ':' :: rest)⟩ = some ⟨a :: t⟩ ∧
    firstMatch ISA_TABLE ⟨a :: t⟩ = none ∧
    classifyLine ISA_TABLE ⟨ws ++ a :: (t ++ ':' :: rest)⟩ = none ∧
    ∀ pre post,
      classifyRaw ISA_TABLE (pre ++ (⟨ws ++ a :: (t ++ ':' :: rest)⟩ : String) :: post)
        = classifyRaw ISA_TABLE (pre ++ post) := by
  have htld : ∀ c ∈ t, isLowerDigit c = true :=
    fun c hc => isLowerDigit_of_isHexLower (hthex c hc)
  have hmc := mneCaptures_space_token ws hws hall a t rest haLow ht htld
  have hat : ∀ c ∈ a :: t, isLowerDigit c = true := by
    intro c hc
    rcases List.mem_cons.mp hc with rfl | hc2
    · simp [isLowerDigit, haLow]
    · exact htld c hc2
  have hext : extractMnemonic ⟨ws ++ a :: (t ++ ':' :: rest)⟩ = some ⟨a :: t⟩ := by
    cases hcap : mneCaptures (ws ++ a :: (t ++ ':' :: rest)) with
    | none => rw [hcap] at hmc; cases hmc
    | some cap =>
      rw [hcap] at hmc
      simp only [Option.map_some'] at hmc
      injection hmc with hmc2
      unfold extractMnemonic
      dsimp only
      rw [if_pos hobj, hcap]
      dsimp only
      rw [hmc2]
      dsimp only [Option.getD_some]
      rw [map_toLower_eq_self hat]
  have hhex : allHexLower ⟨a :: t⟩ = true := by
    simp only [allHexLower]
    refine List.all_eq_true.mpr ?_
    intro c hc
    rcases List.mem_cons.mp hc with rfl | hc2
    · exact haHex
    · exact hthex c hc2
  have hfm : firstMatch ISA_TABLE ⟨a :: t⟩ = none :=
    firstMatch_eq_none_of_no_hex ISA_TABLE _ table_no_hex_mnemonics hhex
  have hcl : classifyLine ISA_TABLE ⟨ws ++ a :: (t ++ ':' :: rest)⟩ = none := by
    simp [classifyLine, hext, hfm]
  exact ⟨hext, hfm, hcl, fun pre post => classifyRaw_skip hcl pre post⟩

/-- Closed instance of the C10 theorem on the line `"  abcd: addps"`: the
hex address `abcd` shadows the SIMD mnemonic `addps` and the line counts
for nothing. -/
theorem spec_c10_witness :
    extractMnemonic ⟨[' ', ' '] ++ 'a' :: (['b', 'c', 'd'] ++ ':' ::
        [' ', 'a', 'd', 'd', 'p', 's'])⟩ = some ⟨'a' :: ['b', 'c', 'd']⟩ ∧
    classifyRaw ISA_TABLE ([] ++ (⟨[' ', ' '] ++ 'a' :: (['b', 'c', 'd'] ++ ':' ::
        [' ', 'a', 'd', 'd', 'p', 's'])⟩ : String) :: [])
      = classifyRaw ISA_TABLE ([] ++ []) := by
  have h := spec_c10_address_token_shadowing [' ', ' '] 'a' ['b', 'c', 'd']
    [' ', 'a', 'd', 'd', 'p', 's'] (by decide) (by decide) (by decide) (by decide)
    (by decide) (by decide) (by decide)
  exact ⟨h.1, h.2.2.2 [] []⟩

end Simdscan
